import Mathlib

set_option maxRecDepth 100000

/-!
Verification of the SQL Guard (`src/llm/sql_guard.py`).

The guard is a pure function from a candidate-SQL string to either a
validated SQL string or a tagged rejection.  We embed it shallowly over
`List Char`: Python's `str.strip`, `re.sub(r"\s+", " ", ...)`, the
word-boundary regex searches, `str.replace`, and the limit-rewrite
`re.sub(r"(?i)\blimit\s+\d+", "LIMIT 5000", ...)` are each modelled as
executable list functions, and `validate_sql` mirrors the source's stage
order exactly.
-/

/-- Python `\s` (ASCII range): space, tab, newline, carriage return,
vertical tab, form feed. -/
def isPySpace (c : Char) : Bool :=
  c = ' ' || c = '\t' || c = '\n' || c = '\r' || c.toNat = 11 || c.toNat = 12

/-- Python regex word character `\w` (ASCII): letters, digits, underscore. -/
def isWordCh (c : Char) : Bool :=
  (decide ('a' ≤ c) && decide (c ≤ 'z')) || (decide ('A' ≤ c) && decide (c ≤ 'Z')) ||
  (decide ('0' ≤ c) && decide (c ≤ '9')) || c = '_'

/-- Characters admitted by the table-token class `[a-zA-Z0-9_.]`. -/
def isTableCh (c : Char) : Bool := isWordCh c || c = '.'

/-- ASCII digit. -/
def isDigitCh (c : Char) : Bool := decide ('0' ≤ c) && decide (c ≤ '9')

/-- ASCII lower-casing, as Python `str.lower` acts on the inputs at hand. -/
def toLowerCh (c : Char) : Char :=
  if 'A' ≤ c ∧ c ≤ 'Z' then Char.ofNat (c.toNat + 32) else c

/-- The backtick character. -/
def btick : Char := Char.ofNat 96

/-- Python `str.lstrip()`. -/
def lstripL (s : List Char) : List Char := s.dropWhile isPySpace

/-- Python `str.rstrip()`. -/
def rstripL (s : List Char) : List Char := (s.reverse.dropWhile isPySpace).reverse

/-- Python `str.strip()`. -/
def stripL (s : List Char) : List Char := lstripL (rstripL s)

/-- Split at the first occurrence of `pat`: returns the part before and the
part after the match.  `none` when `pat` does not occur. -/
def splitOnFirst (pat : List Char) : List Char → Option (List Char × List Char)
  | [] => none
  | c :: cs =>
    if pat <+: (c :: cs) then some ([], (c :: cs).drop pat.length)
    else
      match splitOnFirst pat cs with
      | some (a, b) => some (c :: a, b)
      | none => none

/-- `pat` occurs as a contiguous substring (Python's `pat in s`). -/
def containsSub (pat s : List Char) : Bool := (splitOnFirst pat s).isSome

/-- Split at the first case-insensitive occurrence of the (lower-case)
pattern `pat`: returns the part before, the matched chunk in original case,
and the part after. -/
def splitOnFirstCI (pat : List Char) : List Char → Option (List Char × List Char × List Char)
  | [] => none
  | c :: cs =>
    if ((c :: cs).take pat.length).map toLowerCh = pat then
      some ([], (c :: cs).take pat.length, (c :: cs).drop pat.length)
    else
      match splitOnFirstCI pat cs with
      | some (a, m, b) => some (c :: a, m, b)
      | none => none

/-- Python `text.replace("```", "")`: delete the non-overlapping
occurrences of three consecutive backticks, scanning left to right. -/
def removeTriple : List Char → List Char
  | c1 :: c2 :: c3 :: rest =>
    if c1 = btick ∧ c2 = btick ∧ c3 = btick then removeTriple rest
    else c1 :: removeTriple (c2 :: c3 :: rest)
  | s => s

/-- Fuelled core of whitespace-run collapsing (`re.sub(r"\s+", " ", s)`):
each maximal whitespace run becomes a single space. -/
def squeezeF : Nat → List Char → List Char
  | 0, _ => []
  | _ + 1, [] => []
  | n + 1, c :: cs =>
    if isPySpace c then ' ' :: squeezeF n (cs.dropWhile isPySpace)
    else c :: squeezeF n cs

/-- `_collapse_ws`: `re.sub(r"\s+", " ", s).strip()`. -/
def collapseWs (s : List Char) : List Char := stripL (squeezeF s.length s)

/-- `normalize_sql`: collapse whitespace, then lower-case. -/
def normalizeSql (s : List Char) : List Char := (collapseWs s).map toLowerCh

/-- `strip_sql_fence`: if a ```` ```sql ... ``` ```` fenced block is present
(case-insensitive tag, first match, lazy interior), return its stripped
interior; otherwise delete all bare ```` ``` ```` markers and strip. -/
def stripSqlFence (text : List Char) : List Char :=
  if text.isEmpty then []
  else
    match splitOnFirstCI ("```sql".data) text with
    | some (_, _, rest) =>
      match splitOnFirst ("```".data) (rest.dropWhile isPySpace) with
      | some (inner, _) => stripL inner
      | none => stripL (removeTriple text)
    | none => stripL (removeTriple text)

/-- `_has_multi_statement`: one trailing semicolon is tolerated; any other
semicolon signals multiple statements. -/
def hasMultiStatement (sql : List Char) : Bool :=
  let s := stripL sql
  if s.isEmpty then false
  else
    let s2 := if s.getLast? = some ';' then s.dropLast else s
    decide (';' ∈ s2)

/-- `_strip_trailing_semicolon`. -/
def stripTrailingSemicolon (sql : List Char) : List Char :=
  let s := stripL sql
  if s.getLast? = some ';' then rstripL s.dropLast else s

/-- Word boundary `\b` holds just before position `i` of `s` (the pattern
beginning there starts with a word character). -/
def boundaryBeforeAt (s : List Char) (i : Nat) : Bool :=
  match (s.take i).getLast? with
  | none => true
  | some c => !(isWordCh c)

/-- Word boundary `\b` holds just after position `j` of `s` (the pattern
ending there ends with a word character). -/
def boundaryAfterAt (s : List Char) (j : Nat) : Bool :=
  match (s.drop j).head? with
  | none => true
  | some c => !(isWordCh c)

/-- The whole word `w` occurs at position `i` of `s` (`\bw\b` anchored). -/
def wordAt (w s : List Char) (i : Nat) : Bool :=
  decide ((s.drop i).take w.length = w) && boundaryBeforeAt s i &&
    boundaryAfterAt s (i + w.length)

/-- `re.search(r"\bw\b", s)` succeeds. -/
def wordOccurs (w s : List Char) : Bool :=
  (List.range (s.length + 1)).any (wordAt w s)

/-- A match of `\bfrom\s+([a-zA-Z0-9_.]+)` starting at position `i`;
returns the captured table token. -/
def tableTokenAt (s : List Char) (i : Nat) : Option (List Char) :=
  if boundaryBeforeAt s i ∧ ("from".data <+: s.drop i) then
    let rest := s.drop (i + 4)
    if (rest.takeWhile isPySpace).isEmpty then none
    else
      let tok := (rest.dropWhile isPySpace).takeWhile isTableCh
      if tok.isEmpty then none else some tok
  else none

/-- `_extract_table` without the raise: the first (leftmost) match of
`\bfrom\s+([a-zA-Z0-9_.]+)`. -/
def extractTable (s : List Char) : Option (List Char) :=
  (List.range s.length).findSome? (tableTokenAt s)

/-- Value of the digit string (`int` on a `\d+` capture). -/
def digitsToNat (ds : List Char) : Nat :=
  ds.foldl (fun n c => 10 * n + (c.toNat - 48)) 0

/-- A match of `\blimit\s+(\d+)` starting at position `i`; returns the
numeral's value. -/
def limitNumAt (s : List Char) (i : Nat) : Option Nat :=
  if boundaryBeforeAt s i ∧ ("limit".data <+: s.drop i) then
    let rest := s.drop (i + 5)
    if (rest.takeWhile isPySpace).isEmpty then none
    else
      let ds := (rest.dropWhile isPySpace).takeWhile isDigitCh
      if ds.isEmpty then none else some (digitsToNat ds)
  else none

/-- `_extract_limit`: the first match of `\blimit\s+(\d+)`. -/
def extractLimit (s : List Char) : Option Nat :=
  (List.range s.length).findSome? (limitNumAt s)

/-- Case-insensitive prefix test against a lower-case pattern. -/
def isCIPrefix (pat s : List Char) : Bool :=
  decide ((s.take pat.length).map toLowerCh = pat)

/-- No word character just before the scan position (`\b` for a pattern
starting with a word character). -/
def boundaryPrev (prev : Option Char) : Bool :=
  match prev with
  | none => true
  | some p => !(isWordCh p)

/-- A match of `(?i)\blimit\s+\d+` starts at the head of `s` when the
previous original character is `prev`. -/
def limitMatchHere (prev : Option Char) (s : List Char) : Bool :=
  boundaryPrev prev && isCIPrefix ("limit".data) s &&
    !((s.drop 5).takeWhile isPySpace).isEmpty &&
    !(((s.drop 5).dropWhile isPySpace).takeWhile isDigitCh).isEmpty

/-- Fuelled core of `re.sub(r"(?i)\blimit\s+\d+", "LIMIT 5000", s)`:
scan left to right carrying the previous original character (for `\b`),
replacing each match wholesale and resuming after its digits. -/
def subLimitF : Nat → Option Char → List Char → List Char
  | 0, _, s => s
  | _ + 1, _, [] => []
  | n + 1, prev, c :: cs =>
    if limitMatchHere prev (c :: cs) then
      ("LIMIT 5000".data) ++
        subLimitF n ((((c :: cs).drop 5).dropWhile isPySpace).takeWhile isDigitCh).getLast?
          ((((c :: cs).drop 5).dropWhile isPySpace).dropWhile isDigitCh)
    else c :: subLimitF n (some c) cs

/-- The limit-capping rewrite `re.sub(r"(?i)\blimit\s+\d+", "LIMIT 5000", s)`. -/
def subLimit (s : List Char) : List Char := subLimitF s.length none s

def DEFAULT_LIMIT : Nat := 1000
def MAX_LIMIT : Nat := 5000
def DISALLOW_JOIN : Bool := true

/-- `_ensure_limit`: if a space-surrounded `limit` is present in the
normalized text, cap an oversized parseable numeral (rewriting the raw
text); otherwise append `LIMIT 1000`. -/
def ensureLimit (raw : List Char) : List Char :=
  if containsSub (" limit ".data) (normalizeSql raw) then
    match extractLimit (normalizeSql raw) with
    | some lim => if lim > MAX_LIMIT then subLimit raw else raw
    | none => raw
  else rstripL raw ++ (" LIMIT 1000".data)

/-- Tail shape `\s+\bfrom\b` for the projection regex. -/
def tailFromMatch (t : List Char) : Bool :=
  !(t.takeWhile isPySpace).isEmpty &&
    (let u := t.dropWhile isPySpace
     decide ("from".data <+: u) && boundaryAfterAt u 4)

/-- A full match of `\bselect\s+(.*?)\s+\bfrom\b` starting at position `i`:
greedy leading whitespace, then the shortest newline-free interior
followed by `\s+from\b`.  Returns the captured interior. -/
def projBodyAt (s : List Char) (i : Nat) : Option (List Char) :=
  if boundaryBeforeAt s i ∧ ("select".data <+: s.drop i) then
    let rest := s.drop (i + 6)
    if (rest.takeWhile isPySpace).isEmpty then none
    else
      let body := rest.dropWhile isPySpace
      (List.range (body.length + 1)).findSome? (fun m =>
        if !(decide ('\n' ∈ body.take m)) && tailFromMatch (body.drop m) then
          some (body.take m)
        else none)
  else none

/-- `re.search(r"\bselect\s+(.*?)\s+\bfrom\b", s)`: leftmost match. -/
def projMatch (s : List Char) : Option (List Char) :=
  (List.range s.length).findSome? (projBodyAt s)

/-- Fuelled core of `re.sub(r"\bas\s+[a-zA-Z0-9_]+\b", "", p)`. -/
def removeAsF : Nat → Option Char → List Char → List Char
  | 0, _, s => s
  | _ + 1, _, [] => []
  | n + 1, prev, c :: cs =>
    let s := c :: cs
    let bOK := match prev with | none => true | some p => !(isWordCh p)
    if bOK && decide ("as".data <+: s) &&
        !((s.drop 2).takeWhile isPySpace).isEmpty &&
        !(((s.drop 2).dropWhile isPySpace).takeWhile isWordCh).isEmpty then
      let w := ((s.drop 2).dropWhile isPySpace).takeWhile isWordCh
      let rest := ((s.drop 2).dropWhile isPySpace).dropWhile isWordCh
      removeAsF n w.getLast? rest
    else c :: removeAsF n (some c) cs

/-- Alias removal `re.sub(r"\bas\s+[a-zA-Z0-9_]+\b", "", p)`. -/
def removeAsAll (s : List Char) : List Char := removeAsF s.length none s

/-- Fuelled core of `re.findall(r"[a-zA-Z_][a-zA-Z0-9_]*", p)`: maximal
word-character runs with leading digits discarded. -/
def identTokensF : Nat → List Char → List (List Char)
  | 0, _ => []
  | _ + 1, [] => []
  | n + 1, c :: cs =>
    if isWordCh c then
      let run := (c :: cs).takeWhile isWordCh
      let tok := run.dropWhile isDigitCh
      let rest := (c :: cs).dropWhile isWordCh
      (if tok.isEmpty then [] else [tok]) ++ identTokensF n rest
    else identTokensF n cs

/-- `re.findall(r"[a-zA-Z_][a-zA-Z0-9_]*", p)`. -/
def identTokens (s : List Char) : List (List Char) := identTokensF s.length s

/-- Python `str.split(sep)` for a single-character separator. -/
def splitOnChar (sep : Char) : List Char → List (List Char)
  | [] => [[]]
  | c :: cs =>
    if c = sep then [] :: splitOnChar sep cs
    else
      match splitOnChar sep cs with
      | h :: t => (c :: h) :: t
      | [] => [[c]]

/-- Fuelled de-duplication keeping first occurrences, as the source's
manual `uniq` loop does. -/
def uniqFirstF : Nat → List (List Char) → List (List Char)
  | 0, _ => []
  | _ + 1, [] => []
  | n + 1, a :: l => a :: uniqFirstF n (l.filter (fun x => !(decide (x = a))))

/-- De-duplication keeping first occurrences. -/
def uniqFirst (l : List (List Char)) : List (List Char) := uniqFirstF l.length l

/-- Python string `<` (lexicographic by code point). -/
def lexLt : List Char → List Char → Bool
  | [], [] => false
  | [], _ :: _ => true
  | _ :: _, [] => false
  | a :: as, b :: bs => if a.toNat < b.toNat then true else if a = b then lexLt as bs else false

def insertLex (x : List Char) : List (List Char) → List (List Char)
  | [] => [x]
  | y :: ys => if lexLt x y then x :: y :: ys else y :: insertLex x ys

/-- `sorted` on distinct strings. -/
def sortLex : List (List Char) → List (List Char)
  | [] => []
  | x :: xs => insertLex x (sortLex xs)

def ALLOWED_TABLES : List (List Char) :=
  ["mart.daily_campaign_kpi", "mart_daily_insight", "mart_daily_insight_latest"].map String.data

def KPI_COLUMNS : List (List Char) :=
  ["event_date", "campaign_id", "impressions", "clicks", "conversions", "ctr", "cvr",
   "ad_cost", "ad_revenue", "payments_total", "payments_success", "payments_failed",
   "payment_success_rate", "pay_amount_success"].map String.data

def INSIGHT_COLUMNS : List (List Char) :=
  ["event_date", "headline", "risk_level", "summary_md", "created_at"].map String.data

/-- `ALLOWED_COLUMNS.get(table)`. -/
def allowedColumnsFor (t : List Char) : Option (List (List Char)) :=
  if t = "mart.daily_campaign_kpi".data then some KPI_COLUMNS
  else if t = "mart_daily_insight".data then some INSIGHT_COLUMNS
  else if t = "mart_daily_insight_latest".data then some INSIGHT_COLUMNS
  else none

def BLOCK_PATTERNS : List (List Char) :=
  ["insert", "update", "delete", "merge", "drop", "create", "alter", "truncate", "grant",
   "revoke", "copy", "export", "import", "attach", "detach", "pragma", "call", "execute"].map String.data

def FUNC_TOKENS : List (List Char) :=
  ["sum", "avg", "min", "max", "count", "distinct", "case", "when", "then", "else", "end"].map String.data

def KW_TOKENS : List (List Char) :=
  ["select", "from", "where", "between", "and", "or", "order", "by", "limit", "asc", "desc"].map String.data

/-- `table.split(".")[-1]`. -/
def lastDotSegment (t : List Char) : List Char := (splitOnChar '.' t).getLastD []

/-- The suspicious-token filter of the column-allowlist heuristic. -/
def suspiciousTokens (selected : List (List Char)) (cols : List (List Char))
    (table : List Char) : List (List Char) :=
  selected.filter (fun tok =>
    !(decide (tok ∈ FUNC_TOKENS)) && !(decide (tok ∈ KW_TOKENS)) &&
    !(decide (tok = lastDotSegment table)) && !(decide (tok ∈ cols)))

/-- `_extract_selected_columns`. -/
def extractSelectedColumns (norm : List Char) : Option (List (List Char)) :=
  match projMatch norm with
  | none => none
  | some g =>
    let selectPart := stripL g
    if decide (selectPart = "*".data) || decide ("* ".data <+: selectPart) then none
    else
      let parts := (splitOnChar ',' selectPart).map stripL
      let cols := (parts.map (fun p => identTokens (stripL (removeAsAll p)))).flatten
      some (uniqFirst cols)

/-- The rejection reasons of the guard, one per raise site of
`validate_sql` and its helpers. -/
inductive GuardError where
  | emptyInput
  | multiStatement
  | notASelect
  | joinNotAllowed
  | blockedKeyword
  | missingSource
  | tableNotAllowed (table : String)
  | tooManyUnknownColumns (tokens : List String)
deriving DecidableEq, Repr

/-- The fence-stripped, stripped candidate (`raw` before semicolon removal). -/
def raw0Of (s : String) : List Char := stripL (stripSqlFence s.data)

/-- The candidate after trailing-semicolon removal (`raw` as validated). -/
def rawOf (s : String) : List Char := stripTrailingSemicolon (raw0Of s)

/-- The case-folded, whitespace-collapsed copy used for classification. -/
def normOf (s : String) : List Char := normalizeSql (rawOf s)

/-- The stages of `validate_sql` past multi-statement detection: they are
a function of the semicolon-stripped candidate alone.  `normalizeSql raw`
is the `norm` copy the source computes once. -/
def validateTail (raw : List Char) : Except GuardError String :=
  if ¬ ("select ".data <+: normalizeSql raw) then .error .notASelect
  else if DISALLOW_JOIN && wordOccurs ("join".data) (normalizeSql raw) then .error .joinNotAllowed
  else if BLOCK_PATTERNS.any (fun w => wordOccurs w (normalizeSql raw)) then .error .blockedKeyword
  else
    match extractTable (normalizeSql raw) with
    | none => .error .missingSource
    | some table =>
      if ¬ (table ∈ ALLOWED_TABLES) then .error (.tableNotAllowed (String.mk table))
      else
        match allowedColumnsFor table with
        | none => .ok (String.mk (ensureLimit raw))
        | some cols =>
          match extractSelectedColumns (normalizeSql raw) with
          | none => .ok (String.mk (ensureLimit raw))
          | some selected =>
            if (suspiciousTokens selected cols table).length ≥ 3 then
              .error (.tooManyUnknownColumns
                (((sortLex (uniqFirst (suspiciousTokens selected cols table))).take 10).map String.mk))
            else .ok (String.mk (ensureLimit raw))

/-- `validate_sql`: the guard pipeline, stage for stage. -/
def validate_sql (s : String) : Except GuardError String :=
  if (stripL s.data).isEmpty then .error .emptyInput
  else if hasMultiStatement (raw0Of s) then .error .multiStatement
  else validateTail (rawOf s)

instance {ε α} [DecidableEq ε] [DecidableEq α] : DecidableEq (Except ε α) := fun
  | .ok a, .ok b => if h : a = b then .isTrue (by rw [h]) else .isFalse (by simp [h])
  | .ok _, .error _ => .isFalse (by simp)
  | .error _, .ok _ => .isFalse (by simp)
  | .error a, .error b => if h : a = b then .isTrue (by rw [h]) else .isFalse (by simp [h])

/-- The spec's table-token class: after the first `from` clause keyword,
the contiguous run of letters, digits and underscores containing at most
one schema-separator dot (truncate at a second dot). -/
def truncAtSecondDot (t : List Char) : List Char :=
  go t false
where
  go : List Char → Bool → List Char
    | [], _ => []
    | c :: cs, seen =>
      if c = '.' then
        if seen then [] else c :: go cs true
      else c :: go cs seen

/-- Table extraction as the spec describes it (identifier token with at
most one dot after the first whole-word `from`). -/
def extractTableSpec (s : List Char) : Option (List Char) :=
  (extractTable s).map truncAtSecondDot

/-- The pipeline stages before table extraction all pass: the input is not
all-whitespace, is a single statement, starts with the read verb, and has
no join or blocked keyword. -/
def reachesTableStage (s : String) : Prop :=
  (stripL s.data).isEmpty = false ∧ hasMultiStatement (raw0Of s) = false ∧
    ("select ".data <+: normOf s) ∧
    (DISALLOW_JOIN && wordOccurs ("join".data) (normOf s)) = false ∧
    (BLOCK_PATTERNS.any fun w => wordOccurs w (normOf s)) = false

instance (s : String) : Decidable (reachesTableStage s) := by
  unfold reachesTableStage
  infer_instance


/-! ### Stripping facts -/

theorem lstripL_suffix (s : List Char) : lstripL s <:+ s := List.dropWhile_suffix _

theorem rstripL_isPre (s : List Char) : rstripL s <+: s := by
  have h : (s.reverse.dropWhile isPySpace) <:+ s.reverse := List.dropWhile_suffix _
  have h2 : (s.reverse.dropWhile isPySpace).reverse.reverse <:+ s.reverse := by
    simpa using h
  simpa [rstripL] using List.reverse_suffix.mp h2

theorem stripL_isInf (s : List Char) : stripL s <:+: s :=
  ((lstripL_suffix (rstripL s)).isInfix).trans ((rstripL_isPre s).isInfix)

theorem mem_of_mem_stripL {a : Char} {s : List Char} (h : a ∈ stripL s) : a ∈ s :=
  ((stripL_isInf s).sublist).subset h

theorem head_lstripL_not_space {s : List Char} {c : Char}
    (h : (lstripL s).head? = some c) : isPySpace c = false := by
  induction s with
  | nil => simp [lstripL] at h
  | cons d l ih =>
    rw [lstripL, List.dropWhile_cons] at h
    by_cases hd : isPySpace d
    · rw [if_pos hd] at h
      exact ih h
    · rw [if_neg hd] at h
      simp only [List.head?_cons, Option.some.injEq] at h
      subst h
      simpa using hd

theorem lstripL_eq_self_of_head {s : List Char}
    (h : ∀ c, s.head? = some c → isPySpace c = false) : lstripL s = s := by
  cases s with
  | nil => rfl
  | cons d l =>
    rw [lstripL, List.dropWhile_cons, if_neg]
    simp [h d rfl]

theorem lstripL_idem (s : List Char) : lstripL (lstripL s) = lstripL s :=
  lstripL_eq_self_of_head fun _ hc => head_lstripL_not_space hc

theorem getLast_rstripL_not_space {s : List Char} {c : Char}
    (h : (rstripL s).getLast? = some c) : isPySpace c = false := by
  rw [rstripL, List.getLast?_reverse] at h
  exact head_lstripL_not_space (s := s.reverse) h

theorem rstripL_eq_self_of_getLast {s : List Char}
    (h : ∀ c, s.getLast? = some c → isPySpace c = false) : rstripL s = s := by
  rw [rstripL]
  have h2 : s.reverse.dropWhile isPySpace = s.reverse := by
    have h3 : lstripL s.reverse = s.reverse := by
      apply lstripL_eq_self_of_head
      intro c hc
      rw [List.head?_reverse] at hc
      exact h c hc
    simpa [lstripL] using h3
  rw [h2, List.reverse_reverse]

theorem rstripL_idem (s : List Char) : rstripL (rstripL s) = rstripL s :=
  rstripL_eq_self_of_getLast fun _ hc => getLast_rstripL_not_space hc

theorem head_eq_of_isPre {l s : List Char} (h : l <+: s) (hne : l ≠ []) :
    l.head? = s.head? := by
  obtain ⟨t, rfl⟩ := h
  cases l with
  | nil => exact absurd rfl hne
  | cons c cs => simp

theorem getLast_of_suffix {l s : List Char} (h : l <:+ s) (hne : l ≠ []) :
    l.getLast? = s.getLast? := by
  obtain ⟨t, rfl⟩ := h
  exact (List.getLast?_append_of_ne_nil t hne).symm

theorem getLast_lstripL {s : List Char} (hne : lstripL s ≠ []) :
    (lstripL s).getLast? = s.getLast? :=
  getLast_of_suffix (lstripL_suffix s) hne

theorem head_rstripL {s : List Char} (hne : rstripL s ≠ []) :
    (rstripL s).head? = s.head? :=
  head_eq_of_isPre (rstripL_isPre s) hne

theorem stripL_idem (s : List Char) : stripL (stripL s) = stripL s := by
  have h1 : rstripL (stripL s) = stripL s := by
    apply rstripL_eq_self_of_getLast
    intro c hc
    have hne : stripL s ≠ [] := by
      intro he
      rw [he] at hc
      simp at hc
    rw [stripL] at hc hne
    rw [getLast_lstripL hne] at hc
    exact getLast_rstripL_not_space hc
  rw [stripL, h1]
  exact lstripL_idem _

theorem head_stripL_not_space {s : List Char} {c : Char}
    (h : (stripL s).head? = some c) : isPySpace c = false :=
  head_lstripL_not_space (s := rstripL s) h

theorem getLast_stripL_not_space {s : List Char} {c : Char}
    (h : (stripL s).getLast? = some c) : isPySpace c = false := by
  have hne : stripL s ≠ [] := by
    intro he
    rw [he] at h
    simp at h
  rw [stripL, getLast_lstripL (by rw [stripL] at hne; exact hne)] at h
  exact getLast_rstripL_not_space h

theorem stripL_eq_self {s : List Char}
    (hh : ∀ c, s.head? = some c → isPySpace c = false)
    (hl : ∀ c, s.getLast? = some c → isPySpace c = false) : stripL s = s := by
  rw [stripL, rstripL_eq_self_of_getLast hl, lstripL_eq_self_of_head hh]

theorem stripL_stripTrailingSemicolon (x : List Char) :
    stripL (stripTrailingSemicolon x) = stripTrailingSemicolon x := by
  rw [stripTrailingSemicolon]
  split
  · apply stripL_eq_self
    · intro c hc
      have hne : rstripL (stripL x).dropLast ≠ [] := by
        intro he
        rw [he] at hc
        simp at hc
      rw [head_rstripL hne] at hc
      have hpre : (stripL x).dropLast <+: stripL x := List.dropLast_prefix _
      have hne2 : (stripL x).dropLast ≠ [] := by
        intro he
        rw [rstripL, he] at hne
        simp [lstripL] at hne
      rw [head_eq_of_isPre hpre hne2] at hc
      exact head_stripL_not_space hc
    · intro c hc
      exact getLast_rstripL_not_space hc
  · exact stripL_idem x

theorem mem_lstripL_of_nonspace {x : Char} {s : List Char}
    (hx : x ∈ s) (hn : isPySpace x = false) : x ∈ lstripL s := by
  induction s with
  | nil => simp at hx
  | cons c l ih =>
    rw [lstripL, List.dropWhile_cons]
    by_cases hc : isPySpace c
    · rw [if_pos hc]
      rcases List.mem_cons.mp hx with rfl | hm
      · rw [hn] at hc; cases hc
      · exact ih hm
    · rw [if_neg hc]
      exact hx

theorem mem_rstripL_of_nonspace {x : Char} {s : List Char}
    (hx : x ∈ s) (hn : isPySpace x = false) : x ∈ rstripL s := by
  rw [rstripL, List.mem_reverse]
  exact mem_lstripL_of_nonspace (List.mem_reverse.mpr hx) hn

theorem mem_stripL_of_nonspace {x : Char} {s : List Char}
    (hx : x ∈ s) (hn : isPySpace x = false) : x ∈ stripL s :=
  mem_lstripL_of_nonspace (mem_rstripL_of_nonspace hx hn) hn

/-! ### splitOnFirst facts -/

theorem splitOnFirst_eq {pat s a b : List Char}
    (h : splitOnFirst pat s = some (a, b)) : s = a ++ pat ++ b := by
  induction s generalizing a b with
  | nil => simp [splitOnFirst] at h
  | cons c cs ih =>
    rw [splitOnFirst] at h
    split at h
    · rename_i hp
      obtain ⟨t, ht⟩ := hp
      simp only [Option.some.injEq, Prod.mk.injEq] at h
      obtain ⟨h1, h2⟩ := h
      subst h1 h2
      rw [← ht, List.drop_left]
      simp
    · cases hsp : splitOnFirst pat cs with
      | none => rw [hsp] at h; simp at h
      | some p =>
        obtain ⟨a', b'⟩ := p
        rw [hsp] at h
        simp only [Option.some.injEq, Prod.mk.injEq] at h
        obtain ⟨h1, h2⟩ := h
        subst h2
        rw [← h1]
        have := ih hsp
        rw [this]
        simp

theorem splitOnFirst_none {pat s : List Char} (hne : pat ≠ [])
    (h : splitOnFirst pat s = none) : ¬ pat <:+: s := by
  induction s with
  | nil =>
    intro hc
    exact hne (List.eq_nil_of_infix_nil hc)
  | cons c cs ih =>
    rw [splitOnFirst] at h
    split at h
    · simp at h
    · rename_i hp
      cases hsp : splitOnFirst pat cs with
      | some p => obtain ⟨a', b'⟩ := p; rw [hsp] at h; simp at h
      | none =>
        intro hc
        rcases List.infix_cons_iff.mp hc with h1 | h2
        · exact hp h1
        · exact ih hsp h2

theorem splitOnFirst_not_in_before {pat s a b : List Char} (hne : pat ≠ [])
    (h : splitOnFirst pat s = some (a, b)) : ¬ pat <:+: a := by
  induction s generalizing a b with
  | nil => simp [splitOnFirst] at h
  | cons c cs ih =>
    rw [splitOnFirst] at h
    split at h
    · simp only [Option.some.injEq, Prod.mk.injEq] at h
      obtain ⟨h1, _⟩ := h
      subst h1
      intro hc
      exact hne (List.eq_nil_of_infix_nil hc)
    · rename_i hp
      cases hsp : splitOnFirst pat cs with
      | none => rw [hsp] at h; simp at h
      | some p =>
        obtain ⟨a', b'⟩ := p
        rw [hsp] at h
        simp only [Option.some.injEq, Prod.mk.injEq] at h
        obtain ⟨h1, h2⟩ := h
        subst h1
        intro hc
        rcases List.infix_cons_iff.mp hc with h1 | h2
        · have hcs := splitOnFirst_eq hsp
          have hpre : c :: a' <+: c :: cs := by
            refine ⟨pat ++ b', ?_⟩
            rw [hcs]
            simp
          exact hp (h1.trans hpre)
        · exact ih hsp h2

theorem containsSub_iff_isInf {pat s : List Char} (hne : pat ≠ []) :
    containsSub pat s = true ↔ pat <:+: s := by
  rw [containsSub]
  constructor
  · intro h
    cases hsp : splitOnFirst pat s with
    | none => rw [hsp] at h; simp at h
    | some p =>
      obtain ⟨a, b⟩ := p
      have := splitOnFirst_eq hsp
      exact ⟨a, b, by rw [this]⟩
  · intro h
    cases hsp : splitOnFirst pat s with
    | none => exact absurd h (splitOnFirst_none hne hsp)
    | some p => rfl

theorem splitOnFirstCI_eq {pat s a m b : List Char}
    (h : splitOnFirstCI pat s = some (a, m, b)) :
    s = a ++ m ++ b ∧ m.map toLowerCh = pat := by
  induction s generalizing a m b with
  | nil => simp [splitOnFirstCI] at h
  | cons c cs ih =>
    rw [splitOnFirstCI] at h
    split at h
    · rename_i hp
      simp only [Option.some.injEq, Prod.mk.injEq] at h
      obtain ⟨h1, h2, h3⟩ := h
      subst h1
      constructor
      · rw [← h2, ← h3]
        simp
      · rw [← h2]
        exact hp
    · cases hsp : splitOnFirstCI pat cs with
      | none => rw [hsp] at h; simp at h
      | some p =>
        obtain ⟨a', m', b'⟩ := p
        rw [hsp] at h
        simp only [Option.some.injEq, Prod.mk.injEq] at h
        obtain ⟨h1, h2, h3⟩ := h
        subst h2 h3
        obtain ⟨ha, hm⟩ := ih hsp
        refine ⟨?_, hm⟩
        rw [← h1, ha]
        simp

/-! ### removeTriple facts -/

theorem removeTriple_eq_triple {c1 c2 c3 : Char} {rest : List Char}
    (h : c1 = btick ∧ c2 = btick ∧ c3 = btick) :
    removeTriple (c1 :: c2 :: c3 :: rest) = removeTriple rest := by
  rw [removeTriple, if_pos h]

theorem removeTriple_eq_cons3 {c1 c2 c3 : Char} {rest : List Char}
    (h : ¬(c1 = btick ∧ c2 = btick ∧ c3 = btick)) :
    removeTriple (c1 :: c2 :: c3 :: rest) = c1 :: removeTriple (c2 :: c3 :: rest) := by
  rw [removeTriple, if_neg h]

theorem removeTriple_short {s : List Char}
    (hs : ∀ (c1 c2 c3 : Char) (rest : List Char), s = c1 :: c2 :: c3 :: rest → False) :
    removeTriple s = s := by
  match s with
  | [] => rfl
  | [a] => rfl
  | [a, b] => rfl
  | a :: b :: c :: t => exact (hs a b c t rfl).elim

theorem removeTriple_cons_ne {c : Char} {l : List Char} (hc : ¬ c = btick) :
    removeTriple (c :: l) = c :: removeTriple l := by
  match l with
  | [] => rfl
  | [x] => rfl
  | x :: y :: t =>
    rw [removeTriple_eq_cons3]
    intro hx
    exact hc hx.1

theorem removeTriple_subset {a : Char} : ∀ {s : List Char}, a ∈ removeTriple s → a ∈ s := by
  intro s
  induction s using removeTriple.induct with
  | case1 c1 c2 c3 rest htr ih =>
    rw [removeTriple_eq_triple htr]
    intro h
    exact List.mem_cons_of_mem _ (List.mem_cons_of_mem _ (List.mem_cons_of_mem _ (ih h)))
  | case2 c1 c2 c3 rest htr ih =>
    rw [removeTriple_eq_cons3 htr]
    intro h
    rcases List.mem_cons.mp h with rfl | hm
    · exact List.mem_cons_self _ _
    · exact List.mem_cons_of_mem _ (ih hm)
  | case3 s hs =>
    rw [removeTriple_short hs]
    exact id

theorem removeTriple_no_triple : ∀ s : List Char, ¬ ("```".data <:+: removeTriple s) := by
  have hbt : "```".data = [btick, btick, btick] := by decide
  intro s
  induction s using removeTriple.induct with
  | case1 c1 c2 c3 rest htr ih =>
    rw [removeTriple_eq_triple htr]
    exact ih
  | case2 c1 c2 c3 rest htr ih =>
    rw [removeTriple_eq_cons3 htr]
    intro hc
    rcases List.infix_cons_iff.mp hc with h1 | h2
    · rw [hbt] at h1
      obtain ⟨t, ht⟩ := h1
      simp only [List.cons_append, List.nil_append] at ht
      injection ht with h1a h1b
      by_cases hc2 : c2 = btick
      · have hc3 : ¬ c3 = btick := fun h3 => htr ⟨h1a.symm, hc2, h3⟩
        subst hc2
        have e1 : removeTriple (btick :: c3 :: rest) = btick :: removeTriple (c3 :: rest) := by
          cases rest with
          | nil => rfl
          | cons r rs => exact removeTriple_eq_cons3 (fun hx => hc3 hx.2.1)
        rw [e1, removeTriple_cons_ne hc3] at h1b
        injection h1b with _ h1c
        injection h1c with h1d _
        exact hc3 h1d.symm
      · rw [removeTriple_cons_ne hc2] at h1b
        injection h1b with h1d _
        exact hc2 h1d.symm
    · exact ih h2
  | case3 s hs =>
    rw [removeTriple_short hs]
    intro hc
    have h3 := hc.length_le
    rw [hbt] at h3
    match s, hs with
    | [], _ => simp at h3
    | [a], _ => simp at h3
    | [a, b], _ => simp at h3
    | a :: b :: c :: t, hs => exact (hs a b c t rfl).elim

theorem removeTriple_id_of_no_triple : ∀ {s : List Char}, ¬("```".data <:+: s) → removeTriple s = s := by
  have hbt : "```".data = [btick, btick, btick] := by decide
  intro s
  induction s using removeTriple.induct with
  | case1 c1 c2 c3 rest htr ih =>
    intro hn
    exfalso
    apply hn
    obtain ⟨h1, h2, h3⟩ := htr
    subst h1 h2 h3
    exact ⟨[], rest, by rw [hbt]; simp⟩
  | case2 c1 c2 c3 rest htr ih =>
    intro hn
    rw [removeTriple_eq_cons3 htr, ih (fun hc => hn (List.infix_cons hc))]
  | case3 s hs =>
    intro _
    exact removeTriple_short hs

/-! ### Collapsing whitespace preserves whitespace-free substrings -/

theorem infix_dropWhile_of_nonspace {w : List Char} (hne : w ≠ [])
    (hw : ∀ c ∈ w, isPySpace c = false) :
    ∀ {s : List Char}, w <:+: s → w <:+: s.dropWhile isPySpace := by
  intro s
  induction s with
  | nil =>
    intro h
    exact absurd (List.eq_nil_of_infix_nil h) hne
  | cons c cs ih =>
    intro h
    rw [List.dropWhile_cons]
    by_cases hc : isPySpace c
    · rw [if_pos hc]
      rcases List.infix_cons_iff.mp h with h1 | h2
      · exfalso
        obtain ⟨t, ht⟩ := h1
        cases w with
        | nil => exact hne rfl
        | cons a w' =>
          simp only [List.cons_append] at ht
          injection ht with ha _
          subst ha
          rw [hw a (List.mem_cons_self _ _)] at hc
          cases hc
      · exact ih h2
    · rw [if_neg hc]
      exact h

theorem prefix_squeezeF : ∀ (fuel : Nat) (w s : List Char),
    (∀ c ∈ w, isPySpace c = false) → s.length ≤ fuel → w <+: s →
    w <+: squeezeF fuel s := by
  intro fuel
  induction fuel with
  | zero =>
    intro w s _ hs h
    have hnil : s = [] := List.length_eq_zero.mp (Nat.le_zero.mp hs)
    subst hnil
    rw [ List.prefix_nil.mp h]
    exact List.nil_prefix
  | succ n ih =>
    intro w s hw hs h
    cases s with
    | nil =>
      rw [ List.prefix_nil.mp h]
      exact List.nil_prefix
    | cons c cs =>
      cases w with
      | nil => exact List.nil_prefix
      | cons a w' =>
        obtain ⟨t, ht⟩ := h
        simp only [List.cons_append] at ht
        injection ht with h1 h2
        subst h1
        have hc : isPySpace a = false := hw a (List.mem_cons_self _ _)
        rw [squeezeF, if_neg (by simp [hc])]
        have hw' : ∀ c ∈ w', isPySpace c = false := fun c hc => hw c (List.mem_cons_of_mem _ hc)
        have hlen : cs.length ≤ n := by
          simp only [List.length_cons] at hs
          omega
        have := ih w' cs hw' hlen ⟨t, h2⟩
        exact (List.prefix_cons_inj a).mpr this

theorem infix_squeezeF : ∀ (fuel : Nat) (w s : List Char), w ≠ [] →
    (∀ c ∈ w, isPySpace c = false) → s.length ≤ fuel → w <:+: s →
    w <:+: squeezeF fuel s := by
  intro fuel
  induction fuel with
  | zero =>
    intro w s hne _ hs h
    have hnil : s = [] := List.length_eq_zero.mp (Nat.le_zero.mp hs)
    subst hnil
    exact absurd (List.eq_nil_of_infix_nil h) hne
  | succ n ih =>
    intro w s hne hw hs h
    cases s with
    | nil => exact absurd (List.eq_nil_of_infix_nil h) hne
    | cons c cs =>
      have hlen : cs.length ≤ n := by
        simp only [List.length_cons] at hs
        omega
      by_cases hc : isPySpace c
      · rw [squeezeF, if_pos (by simp [hc])]
        rcases List.infix_cons_iff.mp h with h1 | h2
        · exfalso
          obtain ⟨t, ht⟩ := h1
          cases w with
          | nil => exact hne rfl
          | cons a w' =>
            simp only [List.cons_append] at ht
            injection ht with ha _
            subst ha
            rw [hw a (List.mem_cons_self _ _)] at hc
            cases hc
        · have h3 : w <:+: cs.dropWhile isPySpace := infix_dropWhile_of_nonspace hne hw h2
          have h4 : (cs.dropWhile isPySpace).length ≤ n :=
            le_trans (List.dropWhile_suffix isPySpace).sublist.length_le hlen
          exact List.infix_cons (ih w _ hne hw h4 h3)
      · rcases List.infix_cons_iff.mp h with h1 | h2
        · exact (prefix_squeezeF (n + 1) w (c :: cs) hw hs h1).isInfix
        · rw [squeezeF, if_neg (by simp [hc])]
          exact List.infix_cons (ih w cs hne hw hlen h2)

theorem infix_stripL_of_nonspace {w : List Char} (hne : w ≠ [])
    (hw : ∀ c ∈ w, isPySpace c = false) {s : List Char} (h : w <:+: s) :
    w <:+: stripL s := by
  have h1 : w.reverse <:+: s.reverse := List.reverse_infix.mpr h
  have h2 : w.reverse <:+: s.reverse.dropWhile isPySpace :=
    infix_dropWhile_of_nonspace (by simpa using hne)
      (fun c hc => hw c (List.mem_reverse.mp hc)) h1
  have h3 : w <:+: rstripL s := by
    rw [rstripL]
    have h4 := List.reverse_infix.mpr h2
    simpa using h4
  rw [stripL, lstripL]
  exact infix_dropWhile_of_nonspace hne hw h3

theorem infix_collapseWs_of_nonspace {w : List Char} (hne : w ≠ [])
    (hw : ∀ c ∈ w, isPySpace c = false) {s : List Char} (h : w <:+: s) :
    w <:+: collapseWs s := by
  rw [collapseWs]
  exact infix_stripL_of_nonspace hne hw
    (infix_squeezeF s.length w s hne hw (Nat.le_refl _) h)

theorem infix_normalizeSql_of_nonspace {w : List Char} (hne : w ≠ [])
    (hw : ∀ c ∈ w, isPySpace c = false) {s : List Char} (h : w <:+: s) :
    w.map toLowerCh <:+: normalizeSql s := by
  rw [normalizeSql]
  exact (infix_collapseWs_of_nonspace hne hw h).map toLowerCh

/-! ### Facts about the limit rewrite -/

theorem subLimitF_id_or_contains : ∀ (fuel : Nat) (p : Option Char) (s : List Char),
    subLimitF fuel p s = s ∨ "LIMIT 5000".data <:+: subLimitF fuel p s := by
  intro fuel
  induction fuel with
  | zero => intro p s; exact Or.inl rfl
  | succ n ih =>
    intro p s
    cases s with
    | nil => exact Or.inl rfl
    | cons c cs =>
      rw [subLimitF]
      split
      · right
        exact ( List.prefix_append _ _).isInfix
      · rcases ih (some c) cs with h | h
        · left
          rw [h]
        · right
          exact List.infix_cons h

theorem subLimitF_not_mem {x : Char} (hx1 : x ∉ "LIMIT 5000".data) :
    ∀ (fuel : Nat) (p : Option Char) (s : List Char), x ∉ s →
    x ∉ subLimitF fuel p s := by
  intro fuel
  induction fuel with
  | zero => intro p s h; exact h
  | succ n ih =>
    intro p s h
    cases s with
    | nil => simp [subLimitF]
    | cons c cs =>
      rw [subLimitF]
      split
      · intro hm
        rcases List.mem_append.mp hm with h1 | h1
        · exact hx1 h1
        · have hsub : ((((c :: cs).drop 5).dropWhile isPySpace).dropWhile isDigitCh) <:+ c :: cs :=
            ((List.dropWhile_suffix isDigitCh).trans (List.dropWhile_suffix isPySpace)).trans
              (List.drop_suffix 5 (c :: cs))
          exact ih _ _ (fun hm2 => h (hsub.sublist.subset hm2)) h1
      · intro hm
        rcases List.mem_cons.mp hm with rfl | h1
        · exact h (List.mem_cons_self _ _)
        · exact ih (some c) cs (fun hm2 => h (List.mem_cons_of_mem _ hm2)) h1

/-! ### A space-surrounded `limit` is a whole-word `limit` occurrence -/

theorem wordOccurs_limit_of_containsSub {s : List Char}
    (h : containsSub (" limit ".data) s = true) : wordOccurs ("limit".data) s = true := by
  have hinf : (" limit ".data) <:+: s := (containsSub_iff_isInf (by decide)).mp h
  obtain ⟨a, b, hs⟩ := hinf
  have hsplit : " limit ".data = [' '] ++ "limit".data ++ [' '] := by decide
  have hs2 : (a ++ [' ']) ++ ("limit".data ++ ([' '] ++ b)) = s := by
    rw [← hs, hsplit]
    simp
  have hfive : ("limit".data).length = 5 := by decide
  have hdropi : s.drop (a ++ [' ']).length = "limit".data ++ ([' '] ++ b) := by
    rw [← hs2, List.drop_left]
  have h1 : (s.drop (a ++ [' ']).length).take ("limit".data).length = "limit".data := by
    rw [hdropi, List.take_left]
  have ht : (s.take (a ++ [' ']).length).getLast? = some ' ' := by
    rw [← hs2, List.take_left, List.getLast?_concat]
  have h2 : boundaryBeforeAt s (a ++ [' ']).length = true := by
    simp only [boundaryBeforeAt, ht]
    decide
  have hd : (s.drop ((a ++ [' ']).length + ("limit".data).length)).head? = some ' ' := by
    have hdd : s.drop ((a ++ [' ']).length + ("limit".data).length) =
        (s.drop (a ++ [' ']).length).drop ("limit".data).length := by
      rw [List.drop_drop]
    rw [hdd, hdropi, List.drop_left]
    rfl
  have h3 : boundaryAfterAt s ((a ++ [' ']).length + ("limit".data).length) = true := by
    simp only [boundaryAfterAt, hd]
    decide
  have hw : wordAt ("limit".data) s (a ++ [' ']).length = true := by
    rw [wordAt, h2, h3]
    simp only [Bool.and_true]
    exact decide_eq_true h1
  have hlt : (a ++ [' ']).length < s.length + 1 := by
    have : s.length = (a ++ [' ']).length + ("limit".data ++ ([' '] ++ b)).length := by
      rw [← hs2, List.length_append]
    omega
  rw [wordOccurs, List.any_eq_true]
  exact ⟨(a ++ [' ']).length, List.mem_range.mpr hlt, hw⟩

/-! ### Pipeline inversion -/

theorem validate_sql_ok_elim {s q : String} (h : validate_sql s = .ok q) :
    (stripL s.data).isEmpty = false ∧ hasMultiStatement (raw0Of s) = false ∧
      validateTail (rawOf s) = .ok q := by
  rw [validate_sql] at h
  split at h
  · exact absurd h (by simp)
  · rename_i h1
    split at h
    · exact absurd h (by simp)
    · rename_i h2
      exact ⟨Bool.eq_false_iff.mpr h1, Bool.eq_false_iff.mpr h2, h⟩

theorem validateTail_ok_elim {raw : List Char} {q : String}
    (h : validateTail raw = .ok q) :
    ("select ".data <+: normalizeSql raw) ∧ q.data = ensureLimit raw ∧
      ∃ t, extractTable (normalizeSql raw) = some t ∧ t ∈ ALLOWED_TABLES := by
  rw [validateTail] at h
  split at h
  · exact absurd h (by simp)
  · rename_i hsel
    rw [not_not] at hsel
    split at h
    · exact absurd h (by simp)
    · split at h
      · exact absurd h (by simp)
      · split at h
        · exact absurd h (by simp)
        · rename_i table hextract
          split at h
          · exact absurd h (by simp)
          · rename_i htab
            rw [not_not] at htab
            split at h
            · injection h with h
              exact ⟨hsel, by rw [← h], table, hextract, htab⟩
            · split at h
              · injection h with h
                exact ⟨hsel, by rw [← h], table, hextract, htab⟩
              · split at h
                · exact absurd h (by simp)
                · injection h with h
                  exact ⟨hsel, by rw [← h], table, hextract, htab⟩

theorem validateTail_ne_emptyInput (raw : List Char) :
    validateTail raw ≠ .error .emptyInput := by
  rw [validateTail]
  split
  · simp
  · split
    · simp
    · split
      · simp
      · split
        · simp
        · split
          · simp
          · split
            · simp
            · split
              · simp
              · split
                · simp
                · simp

theorem validateTail_ne_multiStatement (raw : List Char) :
    validateTail raw ≠ .error .multiStatement := by
  rw [validateTail]
  split
  · simp
  · split
    · simp
    · split
      · simp
      · split
        · simp
        · split
          · simp
          · split
            · simp
            · split
              · simp
              · split
                · simp
                · simp

/-! ### Semicolon and strippedness facts -/

theorem noSemi_stripTrailing {x : List Char} (h : hasMultiStatement x = false) :
    ';' ∉ stripTrailingSemicolon x := by
  simp only [hasMultiStatement] at h
  by_cases hemp : (stripL x).isEmpty = true
  · have hnil : stripL x = [] := List.isEmpty_iff.mp hemp
    simp only [stripTrailingSemicolon, hnil]
    simp
  · rw [if_neg hemp] at h
    have h' := of_decide_eq_false h
    simp only [stripTrailingSemicolon]
    split
    · rename_i hlast
      rw [if_pos hlast] at h'
      intro hm
      exact h' (((rstripL_isPre _).sublist).subset hm)
    · rename_i hlast
      rw [if_neg hlast] at h'
      exact h'

theorem hasMulti_false_of_noSemi {x : List Char} (h1 : ';' ∉ x) (h2 : stripL x = x) :
    hasMultiStatement x = false := by
  simp only [hasMultiStatement, h2]
  by_cases hemp : x.isEmpty = true
  · rw [if_pos hemp]
  · rw [if_neg hemp]
    apply decide_eq_false
    split
    · intro hm
      exact h1 (( List.dropLast_prefix x).sublist.subset hm)
    · exact h1

theorem stripTrailing_id_of_noSemi {x : List Char} (h1 : ';' ∉ x) (h2 : stripL x = x) :
    stripTrailingSemicolon x = x := by
  simp only [stripTrailingSemicolon, h2]
  rw [if_neg]
  intro hlast
  exact h1 (List.mem_of_getLast?_eq_some hlast)

theorem getLast_stripTrailing_not_space {x : List Char} {c : Char}
    (h : (stripTrailingSemicolon x).getLast? = some c) : isPySpace c = false := by
  simp only [stripTrailingSemicolon] at h
  split at h
  · exact getLast_rstripL_not_space h
  · exact getLast_stripL_not_space h

theorem rstripL_stripTrailing (x : List Char) :
    rstripL (stripTrailingSemicolon x) = stripTrailingSemicolon x :=
  rstripL_eq_self_of_getLast fun _ hc => getLast_stripTrailing_not_space hc

theorem stripTrailing_isInf (x : List Char) : stripTrailingSemicolon x <:+: x := by
  simp only [stripTrailingSemicolon]
  split
  · exact (((rstripL_isPre _).trans ( List.dropLast_prefix _)).isInfix).trans (stripL_isInf x)
  · exact stripL_isInf x

/-! ### Character and fence facts -/

theorem char_toNat_ofNat_small (n : Nat) (h : n < 55296) : (Char.ofNat n).toNat = n := by
  have hv : n.isValidChar := Or.inl h
  rw [Char.ofNat, dif_pos hv]
  simp [Char.ofNatAux, Char.toNat, UInt32.toNat, BitVec.toNat_ofNatLt]

theorem toLowerCh_eq_btick {c : Char} (h : toLowerCh c = btick) : c = btick := by
  rw [toLowerCh] at h
  split at h
  · exfalso
    rename_i hAZ
    have h65 : ('A').toNat ≤ c.toNat := UInt32.le_def.mp (Char.le_def.mp hAZ.1)
    have h90 : c.toNat ≤ ('Z').toNat := UInt32.le_def.mp (Char.le_def.mp hAZ.2)
    have hZv : ('Z').toNat = 90 := by decide
    have hAv : ('A').toNat = 65 := by decide
    rw [hZv] at h90
    rw [hAv] at h65
    have hv : (Char.ofNat (c.toNat + 32)).toNat = c.toNat + 32 :=
      char_toNat_ofNat_small _ (by omega)
    rw [h] at hv
    have hb : btick.toNat = 96 := by decide
    omega
  · exact h

theorem triple_of_splitCI {s a m b : List Char}
    (h : splitOnFirstCI ("```sql".data) s = some (a, m, b)) : "```".data <:+: s := by
  obtain ⟨hs, hm⟩ := splitOnFirstCI_eq h
  have hpat : "```sql".data = btick :: btick :: btick :: 's' :: 'q' :: 'l' :: [] := by decide
  rw [hpat] at hm
  cases m with
  | nil => simp at hm
  | cons c1 m1 =>
    cases m1 with
    | nil => simp at hm
    | cons c2 m2 =>
      cases m2 with
      | nil => simp at hm
      | cons c3 m3 =>
        simp only [List.map_cons, List.cons.injEq] at hm
        obtain ⟨h1, h2, h3, _⟩ := hm
        have e1 := toLowerCh_eq_btick h1
        have e2 := toLowerCh_eq_btick h2
        have e3 := toLowerCh_eq_btick h3
        subst e1 e2 e3
        have hpre : "```".data <+: btick :: btick :: btick :: m3 := by
          rw [show "```".data = [btick, btick, btick] from by decide]
          exact ⟨m3, rfl⟩
        rw [hs]
        exact (hpre.isInfix).trans ⟨a, b, rfl⟩

theorem stripSqlFence_no_triple (t : List Char) :
    ¬ ("```".data <:+: stripSqlFence t) := by
  rw [stripSqlFence]
  split
  · intro hc
    exact absurd (List.eq_nil_of_infix_nil hc) (by decide)
  · split
    · split
      · rename_i hsp
        intro hc
        exact splitOnFirst_not_in_before (by decide) hsp (hc.trans (stripL_isInf _))
      · intro hc
        exact removeTriple_no_triple t (hc.trans (stripL_isInf _))
    · intro hc
      exact removeTriple_no_triple t (hc.trans (stripL_isInf _))

theorem mem_stripSqlFence {a : Char} {t : List Char} (h : a ∈ stripSqlFence t) : a ∈ t := by
  rw [stripSqlFence] at h
  split at h
  · simp at h
  · split at h
    · rename_i x1 x2 rest hci
      split at h
      · rename_i inner rest2 hsp
        have h1 : a ∈ inner := mem_of_mem_stripL h
        have h2 : a ∈ rest.dropWhile isPySpace := by
          rw [splitOnFirst_eq hsp]
          simp [h1]
        have h3 : a ∈ rest := (List.dropWhile_suffix isPySpace).sublist.subset h2
        obtain ⟨hT, _⟩ := splitOnFirstCI_eq hci
        rw [hT]
        simp [h3]
      · exact removeTriple_subset (mem_of_mem_stripL h)
    · exact removeTriple_subset (mem_of_mem_stripL h)

theorem stripSqlFence_of_no_triple {t : List Char} (h : ¬ ("```".data <:+: t)) :
    stripSqlFence t = stripL t := by
  rw [stripSqlFence]
  split
  · rename_i hemp
    rw [List.isEmpty_iff.mp hemp]
    rfl
  · split
    · rename_i hci
      exact absurd (triple_of_splitCI hci) h
    · rw [removeTriple_id_of_no_triple h]

/-! ### Bridges between the staged views of the pipeline -/

theorem normOf_eq (s : String) : normalizeSql (rawOf s) = normOf s := rfl

theorem stripL_rawOf (s : String) : stripL (rawOf s) = rawOf s :=
  stripL_stripTrailingSemicolon _

theorem rstripL_rawOf (s : String) : rstripL (rawOf s) = rawOf s :=
  rstripL_stripTrailing _

theorem rawOf_ne_nil_of_select {s : String}
    (hsel : "select ".data <+: normalizeSql (rawOf s)) : rawOf s ≠ [] := by
  intro he
  rw [he] at hsel
  have h0 : normalizeSql ([] : List Char) = [] := rfl
  rw [h0] at hsel
  exact absurd ( List.prefix_nil.mp hsel) (by decide)

theorem validate_sql_eq_tail {q : String}
    (h1 : (stripL q.data).isEmpty = false)
    (h2 : hasMultiStatement (raw0Of q) = false) :
    validate_sql q = validateTail (rawOf q) := by
  rw [validate_sql, if_neg (by simp [h1]), if_neg (by simp [h2])]

theorem stripL_ne_nil_of_semi {s : String} (h : ';' ∈ raw0Of s) :
    (stripL s.data).isEmpty = false := by
  have hsemi : ';' ∈ s.data := mem_stripSqlFence (mem_of_mem_stripL h)
  have hmemS : ';' ∈ stripL s.data := mem_stripL_of_nonspace hsemi (by decide)
  cases hq : (stripL s.data).isEmpty with
  | false => rfl
  | true =>
    rw [List.isEmpty_iff.mp hq] at hmemS
    simp at hmemS


/-! ### Claim theorems -/

/-- C1, counterexample: the source's token class `[a-zA-Z0-9_.]+` admits any
number of dots, not "at most one schema-separator dot": on
`select headline from a.b.c` the code extracts (and reports) `a.b.c`,
while the claimed at-most-one-dot token is `a.b`. -/
theorem C1_counterexample :
    validate_sql "select headline from a.b.c" = .error (.tableNotAllowed "a.b.c") ∧
    extractTable (normOf "select headline from a.b.c") = some ("a.b.c".data) ∧
    extractTableSpec (normOf "select headline from a.b.c") = some ("a.b".data) ∧
    ("a.b.c" : String) ≠ "a.b" := by
  refine ⟨by decide, by decide, by decide, by decide⟩

/-- C1, amended: the referenced table is the contiguous token of letters,
digits, underscores and dots (any number of dots) after the first
whole-word `from`; no such clause gives `MissingSource`; once the table
stage is reached, a token outside `allowed_tables` gives `TableNotAllowed`
carrying the token, and every accepted input's extracted token is a member
of `allowed_tables`. -/
theorem C1_table_stage (s : String) :
    (∀ q, validate_sql s = .ok q →
      ∃ t, extractTable (normOf s) = some t ∧ t ∈ ALLOWED_TABLES) ∧
    (reachesTableStage s → extractTable (normOf s) = none →
      validate_sql s = .error .missingSource) ∧
    (reachesTableStage s → ∀ t, extractTable (normOf s) = some t →
      t ∉ ALLOWED_TABLES → validate_sql s = .error (.tableNotAllowed (String.mk t))) := by
  refine ⟨?_, ?_, ?_⟩
  · intro q hq
    obtain ⟨_, _, h3⟩ := validate_sql_ok_elim hq
    obtain ⟨_, _, t, ht1, ht2⟩ := validateTail_ok_elim h3
    exact ⟨t, ht1, ht2⟩
  · intro hr hnone
    obtain ⟨h1, h2, h3, h4, h5⟩ := hr
    rw [validate_sql, if_neg (by simp [h1]), if_neg (by simp [h2])]
    rw [validateTail, normOf_eq, if_neg (by simp [h3]), if_neg (by simp [h4]),
      if_neg (by simp [h5]), hnone]
  · intro hr t ht hmem
    obtain ⟨h1, h2, h3, h4, h5⟩ := hr
    rw [validate_sql, if_neg (by simp [h1]), if_neg (by simp [h2])]
    rw [validateTail, normOf_eq, if_neg (by simp [h3]), if_neg (by simp [h4]),
      if_neg (by simp [h5]), ht]
    exact if_pos hmem

/-- C1, witness: a reachable non-allowlisted table is rejected with
`TableNotAllowed` carrying the extracted name. -/
theorem C1_witness :
    validate_sql "select headline from nope_table" = .error (.tableNotAllowed "nope_table") :=
  (C1_table_stage "select headline from nope_table").2.2 (by decide) ("nope_table".data)
    (by decide) (by decide)

/-- C2, counterexample: `limit all` is accepted untouched although its
normalized output parses to no limit numeral at all, so no effective limit
value `≤ max_limit` exists in the output. -/
theorem C2_counterexample :
    validate_sql "select headline from mart_daily_insight limit all" =
      .ok "select headline from mart_daily_insight limit all" ∧
    containsSub (" limit ".data)
      (normalizeSql ("select headline from mart_daily_insight limit all").data) = true ∧
    extractLimit (normalizeSql ("select headline from mart_daily_insight limit all").data) =
      none := by
  refine ⟨by decide, by decide, by decide⟩

/-- C2, amended: every accepted output contains the `limit` keyword in its
case-folded text; a parseable numeral for it (and hence a numeric bound)
is not guaranteed. -/
theorem C2_limit_keyword (s q : String) (h : validate_sql s = .ok q) :
    "limit".data <:+: normalizeSql q.data := by
  obtain ⟨_, _, h3⟩ := validate_sql_ok_elim h
  obtain ⟨_, hq, _⟩ := validateTail_ok_elim h3
  rw [hq]
  by_cases hc : containsSub (" limit ".data) (normalizeSql (rawOf s)) = true
  · have hlim : "limit".data <:+: normalizeSql (rawOf s) := by
      have h1 : (" limit ".data) <:+: normalizeSql (rawOf s) :=
        (containsSub_iff_isInf (by decide)).mp hc
      exact (show "limit".data <:+: " limit ".data by decide).trans h1
    rw [ensureLimit, if_pos hc]
    cases hext : extractLimit (normalizeSql (rawOf s)) with
    | none => exact hlim
    | some lim =>
      show "limit".data <:+: normalizeSql (if lim > MAX_LIMIT then subLimit (rawOf s) else rawOf s)
      by_cases hcap : lim > MAX_LIMIT
      · rw [if_pos hcap]
        rcases subLimitF_id_or_contains (rawOf s).length none (rawOf s) with hid | hcont
        · rw [subLimit, hid]
          exact hlim
        · have h5 : "LIMIT".data <:+: subLimit (rawOf s) :=
            (show "LIMIT".data <:+: "LIMIT 5000".data by decide).trans hcont
          have h6 := infix_normalizeSql_of_nonspace (by decide) (by decide) h5
          rw [show ("LIMIT".data).map toLowerCh = "limit".data from by decide] at h6
          exact h6
      · rw [if_neg hcap]
        exact hlim
  · have hc' : containsSub (" limit ".data) (normalizeSql (rawOf s)) = false :=
      Bool.eq_false_iff.mpr hc
    rw [ensureLimit, if_neg (by simp [hc'])]
    have h5 : "LIMIT".data <:+: rstripL (rawOf s) ++ " LIMIT 1000".data :=
      (show "LIMIT".data <:+: " LIMIT 1000".data by decide).trans
        (List.suffix_append _ _).isInfix
    have h6 := infix_normalizeSql_of_nonspace (by decide) (by decide) h5
    rw [show ("LIMIT".data).map toLowerCh = "limit".data from by decide] at h6
    exact h6

/-- C2, witness: an accepted query's case-folded output contains `limit`. -/
theorem C2_witness :
    "limit".data <:+:
      normalizeSql ("select risk_level from mart_daily_insight LIMIT 7").data :=
  C2_limit_keyword "select risk_level from mart_daily_insight LIMIT 7"
    "select risk_level from mart_daily_insight LIMIT 7" (by decide)

/-- C3, counterexample: a mid-text separator swallowed by the SQL fence is
not detected — the input contains a `;` that is not the single trailing
one, yet validation fails with `MissingSource`, not `MultiStatement`. -/
theorem C3_counterexample :
    validate_sql "```sql select 1 ``` ; select 2" = .error .missingSource ∧
    (';' ∈ stripL ("```sql select 1 ``` ; select 2").data) ∧
    (stripL ("```sql select 1 ``` ; select 2").data).getLast? ≠ some ';' ∧
    GuardError.missingSource ≠ GuardError.multiStatement := by
  refine ⟨by decide, by decide, by decide, by decide⟩

/-- C3, amended: for every input whose FENCE-STRIPPED, trimmed text
contains a separator other than the single trailing one, validation fails
with `MultiStatement` — the check runs on the un-collapsed text before
whitespace normalization; and a SINGLE TRAILING separator of that text is
permitted and stripped: it never produces `MultiStatement`, the candidate
that continues through the pipeline is the text minus that separator
(right-stripped), and validation proceeds to the later stages on it. -/
theorem C3_multi_statement (s : String) :
    (';' ∈ raw0Of s →
      ((raw0Of s).getLast? = some ';' → ';' ∈ (raw0Of s).dropLast) →
      validate_sql s = .error .multiStatement) ∧
    ((raw0Of s).getLast? = some ';' → ';' ∉ (raw0Of s).dropLast →
      rawOf s = rstripL ((raw0Of s).dropLast) ∧
      validate_sql s = validateTail (rstripL ((raw0Of s).dropLast)) ∧
      validate_sql s ≠ .error .multiStatement) := by
  constructor
  · intro h1 h2
    have hne : (stripL s.data).isEmpty = false := stripL_ne_nil_of_semi h1
    have hR : stripL (raw0Of s) = raw0Of s := stripL_idem _
    have hREmp : (raw0Of s).isEmpty = false := by
      cases hq : (raw0Of s).isEmpty with
      | false => rfl
      | true =>
        rw [List.isEmpty_iff.mp hq] at h1
        simp at h1
    have hmulti : hasMultiStatement (raw0Of s) = true := by
      simp only [hasMultiStatement, hR]
      rw [if_neg (by simp [hREmp])]
      apply decide_eq_true
      split
      · rename_i hlast
        exact h2 hlast
      · exact h1
    rw [validate_sql, if_neg (by simp [hne]), if_pos (by simp [hmulti])]
  · intro h1 h2
    have hmem : ';' ∈ raw0Of s := List.mem_of_getLast?_eq_some h1
    have hne : (stripL s.data).isEmpty = false := stripL_ne_nil_of_semi hmem
    have hR : stripL (raw0Of s) = raw0Of s := stripL_idem _
    have hREmp : (raw0Of s).isEmpty = false := by
      cases hq : (raw0Of s).isEmpty with
      | false => rfl
      | true =>
        rw [List.isEmpty_iff.mp hq] at hmem
        simp at hmem
    have hmulti : hasMultiStatement (raw0Of s) = false := by
      simp only [hasMultiStatement, hR]
      rw [if_neg (by simp [hREmp])]
      apply decide_eq_false
      split
      · exact h2
      · rename_i hlast
        exact absurd h1 hlast
    have hstripped : rawOf s = rstripL ((raw0Of s).dropLast) := by
      rw [rawOf]
      simp only [stripTrailingSemicolon, hR]
      rw [if_pos h1]
    refine ⟨hstripped, ?_, ?_⟩
    · rw [validate_sql_eq_tail hne hmulti, hstripped]
    · rw [validate_sql_eq_tail hne hmulti]
      exact validateTail_ne_multiStatement _

/-- C3, witness: a bare two-statement input is rejected with
`MultiStatement`, while a query with one trailing separator is not — its
separator is stripped and validation continues past the check. -/
theorem C3_witness :
    validate_sql "select 1; select 2" = .error .multiStatement ∧
    rawOf "select risk_level from mart_daily_insight;" =
      rstripL ((raw0Of "select risk_level from mart_daily_insight;").dropLast) ∧
    validate_sql "select risk_level from mart_daily_insight;" ≠ .error .multiStatement :=
  ⟨(C3_multi_statement "select 1; select 2").1 (by decide) (by decide),
   ((C3_multi_statement "select risk_level from mart_daily_insight;").2
      (by decide) (by decide)).1,
   ((C3_multi_statement "select risk_level from mart_daily_insight;").2
      (by decide) (by decide)).2.2⟩

/-- C4, counterexample: `DELETE FROM insight_table` is rejected with
`NotASelect` (the SELECT-only check precedes the keyword blocklist), not
with `BlockedKeyword` as claimed. -/
theorem C4_counterexample :
    validate_sql "DELETE FROM insight_table" = .error .notASelect ∧
    GuardError.notASelect ≠ GuardError.blockedKeyword := by
  refine ⟨by decide, by decide⟩

/-- C4, amended: `DELETE FROM insight_table` is rejected with `NotASelect`;
table-allowlist evaluation is never reached (no `TableNotAllowed` error
can be produced for it). -/
theorem C4_delete_not_a_select :
    validate_sql "DELETE FROM insight_table" = .error .notASelect ∧
    ∀ t : String, validate_sql "DELETE FROM insight_table" ≠ .error (.tableNotAllowed t) := by
  have h : validate_sql "DELETE FROM insight_table" = .error .notASelect := by decide
  refine ⟨h, ?_⟩
  intro t hc
  rw [h] at hc
  simp at hc

/-- C4, witness: the table-allowlist outcome is indeed never produced for
the DELETE input, for the very name it mentions. -/
theorem C4_witness :
    validate_sql "DELETE FROM insight_table" ≠ .error (.tableNotAllowed "insight_table") :=
  C4_delete_not_a_select.2 "insight_table"

/-- C5, counterexample: capping `limit 6000` replaces the WHOLE matched
text with `LIMIT 5000` — upper-casing the keyword — rather than rewriting
the numeral only and preserving the surrounding text. -/
theorem C5_counterexample :
    validate_sql "select headline from mart_daily_insight limit 6000" =
      .ok "select headline from mart_daily_insight LIMIT 5000" ∧
    ("select headline from mart_daily_insight LIMIT 5000" : String) ≠
      "select headline from mart_daily_insight limit 5000" := by
  refine ⟨by decide, by decide⟩

/-- C5, amended: the limit stage runs last, on the raw (uncollapsed) text
of every ACCEPTED query: an oversized parseable numeral triggers the
rewrite `re.sub((?i)\blimit\s+\d+ → LIMIT 5000)` of EVERY match (keyword
case and spacing included); an unparseable or in-range numeral leaves the
text untouched; an absent space-surrounded `limit` appends ` LIMIT 1000`. -/
theorem C5_limit_stage (s q : String) (h : validate_sql s = .ok q) :
    (containsSub (" limit ".data) (normOf s) = true →
      (∀ n, extractLimit (normOf s) = some n → n > MAX_LIMIT →
        q.data = subLimit (rawOf s)) ∧
      (∀ n, extractLimit (normOf s) = some n → ¬ n > MAX_LIMIT → q.data = rawOf s) ∧
      (extractLimit (normOf s) = none → q.data = rawOf s)) ∧
    (containsSub (" limit ".data) (normOf s) = false →
      q.data = rawOf s ++ " LIMIT 1000".data) := by
  obtain ⟨_, _, h3⟩ := validate_sql_ok_elim h
  obtain ⟨_, hq, _⟩ := validateTail_ok_elim h3
  rw [ensureLimit, normOf_eq] at hq
  constructor
  · intro hc
    rw [if_pos hc] at hq
    refine ⟨?_, ?_, ?_⟩
    · intro n hn hgt
      rw [hn] at hq
      rw [hq]
      exact if_pos hgt
    · intro n hn hle
      rw [hn] at hq
      rw [hq]
      exact if_neg hle
    · intro hn
      rw [hn] at hq
      exact hq
  · intro hc
    rw [if_neg (by simp [hc]), rstripL_rawOf] at hq
    exact hq

/-- C5, witness: the oversized-limit branch of the amended statement at a
concrete accepted input. -/
theorem C5_witness :
    ("select headline from mart_daily_insight LIMIT 5000").data =
      subLimit (rawOf "select headline from mart_daily_insight limit 6000") :=
  ((C5_limit_stage "select headline from mart_daily_insight limit 6000"
      "select headline from mart_daily_insight LIMIT 5000" (by decide)).1
    (by decide)).1 6000 (by decide) (by decide)

/-- C6, counterexample: an input that becomes empty only AFTER fence
stripping is rejected as `NotASelect`, not `EmptyInput` — the emptiness
check runs on the original input, before fence stripping. -/
theorem C6_counterexample :
    validate_sql "```" = .error .notASelect ∧
    stripL (stripSqlFence ("```").data) = [] ∧
    GuardError.notASelect ≠ GuardError.emptyInput := by
  refine ⟨by decide, by decide, by decide⟩

/-- C6, amended: `EmptyInput` is raised exactly when the ORIGINAL input is
empty or all-whitespace; that check runs before every other stage, and no
later stage ever produces `EmptyInput`. -/
theorem C6_empty_input (s : String) :
    (stripL s.data = [] → validate_sql s = .error .emptyInput) ∧
    (stripL s.data ≠ [] → validate_sql s ≠ .error .emptyInput) := by
  constructor
  · intro h
    rw [validate_sql, if_pos (by simp [h])]
  · intro h
    rw [validate_sql, if_neg (by simp [List.isEmpty_iff, h])]
    split
    · simp
    · exact validateTail_ne_emptyInput _

/-- C6, witness: an all-whitespace input is rejected with `EmptyInput`. -/
theorem C6_witness : validate_sql "   " = .error .emptyInput :=
  (C6_empty_input "   ").1 (by decide)

/-- C7, counterexample: an accepted query with doubled internal whitespace
is returned verbatim — the returned text is NOT the whitespace-collapsed
text the claim describes. -/
theorem C7_counterexample :
    validate_sql "SELECT  headline FROM mart_daily_insight LIMIT 5" =
      .ok "SELECT  headline FROM mart_daily_insight LIMIT 5" ∧
    collapseWs ("SELECT  headline FROM mart_daily_insight LIMIT 5").data ≠
      ("SELECT  headline FROM mart_daily_insight LIMIT 5").data := by
  refine ⟨by decide, by decide⟩

/-- C7, amended: the returned string is the ORIGINAL-case,
ORIGINAL-whitespace text — fence-stripped, trimmed, trailing-separator
stripped, with only the limit stage applied; the case-folded,
whitespace-collapsed copy is used only for policy decisions and is never
what is returned. -/
theorem C7_original_text_returned (s q : String) (h : validate_sql s = .ok q) :
    q.data = ensureLimit (rawOf s) := by
  obtain ⟨_, _, h3⟩ := validate_sql_ok_elim h
  exact (validateTail_ok_elim h3).2.1

/-- C7, witness: the amended statement at the doubled-whitespace input. -/
theorem C7_witness :
    ("SELECT  headline FROM mart_daily_insight LIMIT 5").data =
      ensureLimit (rawOf "SELECT  headline FROM mart_daily_insight LIMIT 5") :=
  C7_original_text_returned "SELECT  headline FROM mart_daily_insight LIMIT 5"
    "SELECT  headline FROM mart_daily_insight LIMIT 5" (by decide)

/-- C8, counterexample: idempotence fails. The accepted input gains
` LIMIT 1000`; re-validating that output finds the parenthesised
`(limit 9999)` as the first limit-numeral match, judges it oversized, and
rewrites BOTH limit occurrences to `LIMIT 5000` — a different string. -/
theorem C8_counterexample :
    validate_sql "select headline from mart_daily_insight where (limit 9999) = 1" =
      .ok "select headline from mart_daily_insight where (limit 9999) = 1 LIMIT 1000" ∧
    validate_sql "select headline from mart_daily_insight where (limit 9999) = 1 LIMIT 1000" =
      .ok "select headline from mart_daily_insight where (LIMIT 5000) = 1 LIMIT 5000" ∧
    ("select headline from mart_daily_insight where (LIMIT 5000) = 1 LIMIT 5000" : String) ≠
      "select headline from mart_daily_insight where (limit 9999) = 1 LIMIT 1000" := by
  refine ⟨by decide, by decide, by decide⟩

/-- C8, amended: validating an already-validated query returns the same
string for pass-through cases — whenever the accepted output equals the
fence-stripped, trimmed, separator-stripped input (no rewriting happened),
a second call succeeds and returns it unchanged. -/
theorem C8_pass_through_idempotent (s q : String) (h : validate_sql s = .ok q)
    (hpass : q.data = rawOf s) : validate_sql q = .ok q := by
  obtain ⟨h1, h2, h3⟩ := validate_sql_ok_elim h
  have hsel : "select ".data <+: normalizeSql (rawOf s) := (validateTail_ok_elim h3).1
  have hsemi : ';' ∉ rawOf s := noSemi_stripTrailing h2
  have hstrip : stripL (rawOf s) = rawOf s := stripL_rawOf s
  have hnotriple : ¬ ("```".data <:+: rawOf s) := by
    intro hc
    exact stripSqlFence_no_triple s.data
      ((hc.trans (stripTrailing_isInf _)).trans (stripL_isInf _))
  have hA : (stripL q.data).isEmpty = false := by
    rw [hpass, hstrip]
    cases he : (rawOf s).isEmpty with
    | false => rfl
    | true => exact absurd (List.isEmpty_iff.mp he) (rawOf_ne_nil_of_select hsel)
  have hfence : stripSqlFence q.data = rawOf s := by
    rw [hpass, stripSqlFence_of_no_triple hnotriple, hstrip]
  have hraw0q : raw0Of q = rawOf s := by
    rw [raw0Of, hfence, hstrip]
  have hB : hasMultiStatement (raw0Of q) = false := by
    rw [hraw0q]
    exact hasMulti_false_of_noSemi hsemi hstrip
  have hrawq : rawOf q = rawOf s := by
    rw [rawOf, hraw0q]
    exact stripTrailing_id_of_noSemi hsemi hstrip
  rw [validate_sql_eq_tail hA hB, hrawq]
  exact h3

/-- C8, witness: a pass-through accepted query (its own limit, below the
cap) re-validates to itself. -/
theorem C8_witness :
    validate_sql "select headline from mart_daily_insight limit 5" =
      .ok "select headline from mart_daily_insight limit 5" :=
  C8_pass_through_idempotent "select headline from mart_daily_insight limit 5"
    "select headline from mart_daily_insight limit 5" (by decide) (by decide)

/-- C9: every string `validate_sql` accepts contains no statement
separator `;` anywhere — the multi-statement check bars all but a trailing
one, that one is stripped, and the limit stage inserts none. -/
theorem C9_no_semicolon (s q : String) (h : validate_sql s = .ok q) : ';' ∉ q.data := by
  obtain ⟨_, h2, h3⟩ := validate_sql_ok_elim h
  obtain ⟨_, hq, _⟩ := validateTail_ok_elim h3
  rw [hq]
  have hsemi : ';' ∉ rawOf s := noSemi_stripTrailing h2
  rw [ensureLimit]
  split
  · split
    · split
      · exact subLimitF_not_mem (by decide) _ none _ hsemi
      · exact hsemi
    · exact hsemi
  · intro hm
    rcases List.mem_append.mp hm with hm1 | hm1
    · exact hsemi ((rstripL_isPre _).sublist.subset hm1)
    · exact absurd hm1 (by decide)

/-- C9, witness: a concrete accepted output is semicolon-free. -/
theorem C9_witness : ';' ∉ ("select created_at from mart_daily_insight LIMIT 1000").data :=
  C9_no_semicolon "select created_at from mart_daily_insight"
    "select created_at from mart_daily_insight LIMIT 1000" (by decide)

/-- C10: when the case-folded, whitespace-collapsed text has no whole-word
`limit` occurrence, the accepted output is EXACTLY the fence-stripped,
trimmed, trailing-separator-stripped input with ` LIMIT 1000` appended —
every other character is unchanged. -/
theorem C10_append_frame (s q : String) (h : validate_sql s = .ok q)
    (hnol : wordOccurs ("limit".data) (normOf s) = false) :
    q.data = rawOf s ++ " LIMIT 1000".data := by
  obtain ⟨_, _, h3⟩ := validate_sql_ok_elim h
  obtain ⟨_, hq, _⟩ := validateTail_ok_elim h3
  rw [ensureLimit, normOf_eq] at hq
  rw [if_neg ?hcond, rstripL_rawOf] at hq
  case hcond =>
    intro hc
    have hword := wordOccurs_limit_of_containsSub (s := normOf s) hc
    rw [hnol] at hword
    exact absurd hword (by simp)
  exact hq

/-- C10, witness: the exact appended form at a concrete limit-free input. -/
theorem C10_witness :
    ("select summary_md from mart_daily_insight LIMIT 1000").data =
      rawOf "select summary_md from mart_daily_insight" ++ " LIMIT 1000".data :=
  C10_append_frame "select summary_md from mart_daily_insight"
    "select summary_md from mart_daily_insight LIMIT 1000" (by decide) (by decide)
